import Mathlib

/-!
Shallow embedding of the mark-distribution solver and generation orchestrator
of `src/components/ExamArchive.tsx`, together with proofs of the specified
properties.

Conventions:
* JS numbers that hold parsed integers are modelled as `Int` (with `Option Int`
  standing for possibly-`NaN` results of `parseInt`).
* `Math.random`-driven choices are modelled by explicit parameters:
  a choice stream `rand : Nat → Nat` for the solver, a per-group permutation
  `shuffle` for bank sampling, and a per-request batch `batches` for the AI
  collaborator.
* The in-place mutation relevant to the frame-effect claim is modelled by an
  explicit heap of array references at the end of the definitions.
-/

namespace BioQuest

/-! ### JS primitive models -/

/-- `parseInt(s, 10)` digit accumulation over a digit prefix. -/
def digitsVal : List Char → Nat → Nat
  | [], acc => acc
  | c :: rest, acc => digitsVal rest (acc * 10 + (c.toNat - 48))

/-- `parseInt(s, 10)`: skip leading whitespace, optional sign, then the longest
digit prefix; `none` models `NaN` (no digits). -/
def jsParseIntCore (cs : List Char) : Option Int :=
  let body := cs.dropWhile fun c => c.isWhitespace
  let signAndDigits : Int × List Char :=
    match body with
    | '-' :: rest => (-1, rest)
    | '+' :: rest => (1, rest)
    | rest => (1, rest)
  let ds := signAndDigits.2.takeWhile fun c => c.isDigit
  if ds.isEmpty then none
  else some (signAndDigits.1 * (digitsVal ds 0 : Int))

/-- `parseInt(s, 10)` on a string. -/
def jsParseInt (s : String) : Option Int := jsParseIntCore s.data

/-- `Array.prototype.slice(0, count)` with a possibly negative JS `count`:
a negative end index counts from the end of the array. -/
def jsSlice0 {α : Type} (l : List α) (count : Int) : List α :=
  if count < 0 then l.take ((l.length : Int) + count).toNat
  else l.take count.toNat

/-- First-occurrence-order deduplication, as performed by `[...new Set(xs)]`
and by JS `Map` insertion order: the result lists the distinct values in
order of first occurrence. -/
def dedupFirst {α : Type} [DecidableEq α] : List α → List α
  | [] => []
  | x :: xs => x :: ((dedupFirst xs).filter fun y => decide (y ≠ x))

theorem mem_dedupFirst {α : Type} [DecidableEq α] :
    ∀ (l : List α) (a : α), a ∈ dedupFirst l ↔ a ∈ l := by
  intro l
  induction l with
  | nil => simp [dedupFirst]
  | cons x xs ih =>
    intro a
    simp only [dedupFirst, List.mem_cons, List.mem_filter, decide_eq_true_eq, ih]
    constructor
    · rintro (rfl | ⟨h, _⟩)
      · exact Or.inl rfl
      · exact Or.inr h
    · rintro (rfl | h)
      · exact Or.inl rfl
      · by_cases hx : a = x
        · exact Or.inl hx
        · exact Or.inr ⟨h, hx⟩

theorem nodup_dedupFirst {α : Type} [DecidableEq α] :
    ∀ l : List α, (dedupFirst l).Nodup := by
  intro l
  induction l with
  | nil => exact List.nodup_nil
  | cons x xs ih =>
    refine List.nodup_cons.mpr ⟨?_, ih.filter _⟩
    intro hx
    rw [List.mem_filter, decide_eq_true_eq] at hx
    exact hx.2 rfl

theorem any_congr_mem {α : Type} {l : List α} {f g : α → Bool}
    (h : ∀ x ∈ l, f x = g x) : l.any f = l.any g := by
  induction l with
  | nil => rfl
  | cons x xs ih =>
    simp only [List.any_cons]
    rw [h x (List.mem_cons_self _ _), ih fun y hy => h y (List.mem_cons_of_mem _ hy)]

/-- `String.prototype.split` with a single-character separator (the source
splits only on `','` and `'x'`): empty fields are kept and the empty string
splits to `[""]`. -/
def splitOnChar (sep : Char) : List Char → List (List Char)
  | [] => [[]]
  | c :: rest =>
    if c = sep then [] :: splitOnChar sep rest
    else
      match splitOnChar sep rest with
      | [] => [[c]]
      | group :: groups => (c :: group) :: groups

/-- `s.split(sep)` on strings. -/
def jsSplit (sep : Char) (s : String) : List String :=
  (splitOnChar sep s.data).map fun cs => ⟨cs⟩

/-- `String.prototype.trim`: strip leading and trailing whitespace. -/
def jsTrim (s : String) : String :=
  ⟨(((s.data.dropWhile fun c => c.isWhitespace).reverse.dropWhile
      fun c => c.isWhitespace)).reverse⟩

/-- `needle ∈ haystack` substring test, as in `String.prototype.includes`. -/
def strIncludesAux (pat : List Char) : List Char → Bool
  | [] => pat.isEmpty
  | c :: rest => pat.isPrefixOf (c :: rest) || strIncludesAux pat rest

/-- `msg.substring(msg.indexOf(LBRACE))`: JS `indexOf` yields `-1` when the
character is absent and `substring(-1)` clamps to `0`, keeping the whole
string. -/
def substringFromBrace (s : String) : String :=
  ⟨s.data.drop ((s.data.findIdx? (fun c => c = '\x7b')).getD 0)⟩

/-! ### Distribution solver (`findDistribution`, ExamArchive.tsx lines 699-748) -/

/-- One row of the reachability table: `dp[i]` is set iff some allowed mark `m`
satisfies `m ≤ i` and the already-computed entry `dp[i - m]` is true.
`prev` holds entries `dp[0] .. dp[i-1]`; out-of-range reads (which the source
never performs for its positive marks) default to `false`, matching the
array's `false` initialization. -/
def dpRow (marks : List Nat) (prev : List Bool) (i : Nat) : Bool :=
  marks.any fun m => decide (m ≤ i) && prev.getD (i - m) false

/-- The reachability table `dp[0..n]`: `dp[0] = true`, later entries per
`dpRow`. -/
def dpTable (marks : List Nat) : Nat → List Bool
  | 0 => [true]
  | n + 1 => dpTable marks n ++ [dpRow marks (dpTable marks n) (n + 1)]

/-- Entry `i` of the reachability table. -/
def dpAt (marks : List Nat) (i : Nat) : Bool := (dpTable marks i).getD i false

theorem length_dpTable (marks : List Nat) : ∀ n, (dpTable marks n).length = n + 1 := by
  intro n
  induction n with
  | zero => rfl
  | succ n ih => simp [dpTable, ih]

theorem dpTable_getD_stable (marks : List Nat) :
    ∀ n i, i ≤ n → (dpTable marks n).getD i false = dpAt marks i := by
  intro n
  induction n with
  | zero =>
    intro i hi
    interval_cases i
    rfl
  | succ n ih =>
    intro i hi
    rcases Nat.lt_or_ge i (n + 1) with h | h
    · rw [dpTable]
      rw [List.getD_append _ _ _ _ (by rw [length_dpTable]; omega)]
      exact ih i (by omega)
    · have : i = n + 1 := by omega
      subst this
      rfl

theorem dpAt_zero (marks : List Nat) : dpAt marks 0 = true := rfl

theorem dpAt_succ (marks : List Nat) (hpos : ∀ m ∈ marks, 0 < m) (n : Nat) :
    dpAt marks (n + 1) = marks.any fun m => decide (m ≤ n + 1) && dpAt marks (n + 1 - m) := by
  have h1 : dpAt marks (n + 1)
      = dpRow marks (dpTable marks n) (n + 1) := by
    rw [dpAt, dpTable]
    rw [List.getD_append_right _ _ _ _ (by rw [length_dpTable])]
    rw [length_dpTable]
    simp
  rw [h1, dpRow]
  apply any_congr_mem
  intro m hm
  by_cases hle : m ≤ n + 1
  · have hpos' := hpos m hm
    rw [dpTable_getD_stable marks n (n + 1 - m) (by omega)]
  · simp [hle]

/-- `dp` computes exactly reachability: `dp[n]` holds iff `n` is the sum of
some list of allowed (positive) marks. -/
theorem dpAt_iff_reachable (marks : List Nat) (hpos : ∀ m ∈ marks, 0 < m) :
    ∀ n, dpAt marks n = true ↔ ∃ l : List Nat, (∀ x ∈ l, x ∈ marks) ∧ l.sum = n := by
  intro n
  induction n using Nat.strong_induction_on with
  | _ n ih =>
    match n with
    | 0 =>
      constructor
      · intro _; exact ⟨[], by simp, rfl⟩
      · intro _; rfl
    | n + 1 =>
      rw [dpAt_succ marks hpos n]
      constructor
      · intro h
        rw [List.any_eq_true] at h
        obtain ⟨m, hm, hcond⟩ := h
        rw [Bool.and_eq_true, decide_eq_true_eq] at hcond
        obtain ⟨hle, hdp⟩ := hcond
        have hmpos := hpos m hm
        obtain ⟨l, hl, hsum⟩ := (ih (n + 1 - m) (by omega)).mp hdp
        refine ⟨m :: l, ?_, ?_⟩
        · intro x hx
          rcases List.mem_cons.mp hx with rfl | hx
          · exact hm
          · exact hl x hx
        · simp [hsum]; omega
      · rintro ⟨l, hl, hsum⟩
        match l with
        | [] => simp at hsum
        | x :: xs =>
          have hx : x ∈ marks := hl x (List.mem_cons_self _ _)
          have hxpos := hpos x hx
          have hxs : xs.sum = n + 1 - x := by
            simp at hsum; omega
          have hxle : x ≤ n + 1 := by
            simp at hsum; omega
          rw [List.any_eq_true]
          refine ⟨x, hx, ?_⟩
          rw [Bool.and_eq_true, decide_eq_true_eq]
          refine ⟨hxle, ?_⟩
          exact (ih (n + 1 - x) (by omega)).mpr ⟨xs, fun y hy => hl y (List.mem_cons_of_mem _ hy), hxs⟩

/-- The `possibleMoves` of one reconstruction step (ExamArchive.tsx lines
728-730): allowed marks `m` with `m ≤ total` and `dp[total - m]` true. Reads
of `dp[total - m]` through `dpAt` agree with the source's reads of its single
table of size `target + 1` by `dpTable_getD_stable`. -/
def possibleMoves (marks : List Nat) (total : Nat) : List Nat :=
  marks.filter fun m => decide (m ≤ total) && dpAt marks (total - m)

/-- The randomly chosen move `possibleMoves[Math.floor(Math.random() * possibleMoves.length)]`
(line 737), with `Math.floor(Math.random() * len)` modelled as `rand k % len`. -/
def chosenMove (marks : List Nat) (rand : Nat → Nat) (k : Nat) (total : Nat) : Nat :=
  (possibleMoves marks total).getD (rand k % (possibleMoves marks total).length) 0

theorem chosenMove_mem (marks : List Nat) (rand : Nat → Nat) (k total : Nat)
    (h : ¬ (possibleMoves marks total).isEmpty = true) :
    chosenMove marks rand k total ∈ possibleMoves marks total := by
  rw [chosenMove]
  have hlen : 0 < (possibleMoves marks total).length := by
    rw [List.isEmpty_iff_length_eq_zero] at h
    omega
  have hlt := Nat.mod_lt (rand k) hlen
  rw [List.getD_eq_getElem _ _ hlt]
  exact List.getElem_mem hlt

theorem mem_possibleMoves {marks : List Nat} {total m : Nat}
    (h : m ∈ possibleMoves marks total) :
    m ∈ marks ∧ m ≤ total ∧ dpAt marks (total - m) = true := by
  rw [possibleMoves, List.mem_filter, Bool.and_eq_true, decide_eq_true_eq] at h
  exact ⟨h.1, h.2.1, h.2.2⟩

/-- Randomized witness reconstruction (ExamArchive.tsx lines 724-740): while
`total > 0`, fail (`none`, the source's "Stuck in distribution generation"
branch) when `possibleMoves` is empty, otherwise record the chosen move and
subtract it. The `0 < chosenMove` test is a termination guard that never
fails on the solver's calls, whose marks are all positive. The loop recursion
is bootstrapped on the explicit bound `fuel` so that the definition is
structural: every iteration strictly decreases the remaining total by its
positive chosen move, so the wrapper `reconstruct`, which supplies
`fuel = total`, never reaches the fuel-exhaustion branch
(`reconstructAux_ne_none` below makes this formal). -/
def reconstructAux (marks : List Nat) (rand : Nat → Nat) :
    Nat → Nat → Nat → Option (List Nat)
  | _, _, 0 => some []
  | 0, _, _ + 1 => none
  | fuel + 1, k, total + 1 =>
    if (possibleMoves marks (total + 1)).isEmpty then none
    else if 0 < chosenMove marks rand k (total + 1) then
      (reconstructAux marks rand fuel (k + 1)
        (total + 1 - chosenMove marks rand k (total + 1))).map
        fun rest => chosenMove marks rand k (total + 1) :: rest
    else none

/-- The reconstruction loop entered with `currentTotal = target`. -/
def reconstruct (marks : List Nat) (rand : Nat → Nat) (k total : Nat) :
    Option (List Nat) :=
  reconstructAux marks rand total k total

theorem reconstructAux_sum (marks : List Nat) (rand : Nat → Nat) :
    ∀ fuel k total l, reconstructAux marks rand fuel k total = some l → l.sum = total := by
  intro fuel
  induction fuel with
  | zero =>
    intro k total l h
    match total with
    | 0 =>
      rw [reconstructAux, Option.some_inj] at h
      subst h
      rfl
    | _ + 1 => cases h
  | succ fuel ih =>
    intro k total l h
    match total with
    | 0 =>
      rw [reconstructAux, Option.some_inj] at h
      subst h
      rfl
    | n + 1 =>
      rw [reconstructAux] at h
      split at h
      · cases h
      · rename_i hemp
        split at h
        · rename_i hmp
          rw [Option.map_eq_some'] at h
          obtain ⟨rest, hrest, hcons⟩ := h
          have hmle := (mem_possibleMoves (chosenMove_mem marks rand k (n + 1) hemp)).2.1
          have hsum := ih (k + 1) (n + 1 - chosenMove marks rand k (n + 1)) rest hrest
          rw [← hcons]
          simp only [List.sum_cons, hsum]
          omega
        · cases h

theorem reconstruct_sum (marks : List Nat) (rand : Nat → Nat)
    (k total : Nat) (l : List Nat) (h : reconstruct marks rand k total = some l) :
    l.sum = total :=
  reconstructAux_sum marks rand total k total l h

theorem reconstructAux_ne_none (marks : List Nat) (rand : Nat → Nat)
    (hpos : ∀ m ∈ marks, 0 < m) :
    ∀ fuel total k, total ≤ fuel → dpAt marks total = true →
      reconstructAux marks rand fuel k total ≠ none := by
  intro fuel
  induction fuel with
  | zero =>
    intro total k hle _ h
    match total, hle with
    | 0, _ => cases h
  | succ fuel ih =>
    intro total k hle hdp h
    match total with
    | 0 => cases h
    | n + 1 =>
      rw [reconstructAux] at h
      split at h
      · rename_i hemp
        rw [dpAt_succ marks hpos n, List.any_eq_true] at hdp
        obtain ⟨m, hm, hcond⟩ := hdp
        have hmem : m ∈ possibleMoves marks (n + 1) := by
          rw [possibleMoves, List.mem_filter]
          exact ⟨hm, hcond⟩
        rw [List.isEmpty_iff] at hemp
        rw [hemp] at hmem
        cases hmem
      · rename_i hemp
        split at h
        · rename_i hmp
          rw [Option.map_eq_none'] at h
          have hmove := mem_possibleMoves (chosenMove_mem marks rand k (n + 1) hemp)
          exact ih (n + 1 - chosenMove marks rand k (n + 1)) (k + 1)
            (by omega) hmove.2.2 h
        · rename_i hmp
          exact hmp (hpos _ (mem_possibleMoves (chosenMove_mem marks rand k (n + 1) hemp)).1)

theorem reconstruct_ne_none (marks : List Nat) (rand : Nat → Nat)
    (hpos : ∀ m ∈ marks, 0 < m) (total k : Nat) (hdp : dpAt marks total = true) :
    reconstruct marks rand k total ≠ none :=
  reconstructAux_ne_none marks rand hpos total total k (Nat.le_refl total) hdp

/-- Grouping of the chosen marks into `(count, markValue)` pairs in first-seen
order of value (ExamArchive.tsx lines 742-747, a JS `Map` accumulation). -/
def aggregate (l : List Nat) : List (Nat × Nat) :=
  (dedupFirst l).map fun m => (l.count m, m)

/-- Parse of the allowed-marks setting (ExamArchive.tsx line 701):
split on commas, trim, `parseInt`, drop `NaN` and non-positive values,
deduplicate keeping first occurrences (`[...new Set(...)]`). -/
def parseAllowedMarks (s : String) : List Int :=
  dedupFirst ((jsSplit ',' s).filterMap fun seg =>
    match jsParseInt (jsTrim seg) with
    | some m => if 0 < m then some m else none
    | none => none)

/-- Observable outcome of `findDistribution` plus the toast it triggers:
`malformed` shows the invalid-input toast and returns `null`; `infeasible`
returns `null` with no toast of its own (the caller then reports failed
generation); `stuck` is the internal-invariant-violation branch (console
error, `null`); `ok` returns the distribution. -/
inductive SolverOutcome where
  | malformed : SolverOutcome
  | infeasible : SolverOutcome
  | stuck : SolverOutcome
  | ok : List (Int × Int) → SolverOutcome
deriving DecidableEq

/-- The solver on the parsed target and allowed marks (ExamArchive.tsx lines
703-747): validity check, table construction, feasibility test,
reconstruction, aggregation. -/
def solveCore (t : Int) (uniqueMarks : List Int) (rand : Nat → Nat) : SolverOutcome :=
  if t ≤ 0 ∨ uniqueMarks.isEmpty then .malformed
  else if dpAt (uniqueMarks.map Int.toNat) t.toNat then
    match reconstruct (uniqueMarks.map Int.toNat) rand 0 t.toNat with
    | some resultMarks =>
        .ok ((aggregate resultMarks).map fun p => ((p.1 : Int), (p.2 : Int)))
    | none => .stuck
  else .infeasible

/-- `findDistribution` (ExamArchive.tsx lines 699-748), in total-marks mode:
parse the target (`NaN` is malformed together with the non-positive targets,
line 703) and the allowed marks, then solve. -/
def findDistribution (totalMarks allowedMarks : String) (rand : Nat → Nat) :
    SolverOutcome :=
  match jsParseInt totalMarks with
  | none => .malformed
  | some t => solveCore t (parseAllowedMarks allowedMarks) rand

theorem parseAllowedMarks_pos (s : String) : ∀ m ∈ parseAllowedMarks s, 0 < m := by
  intro m hm
  rw [parseAllowedMarks, mem_dedupFirst] at hm
  rw [List.mem_filterMap] at hm
  obtain ⟨seg, _, hseg⟩ := hm
  rcases hp : jsParseInt (jsTrim seg) with _ | v
  · simp only [hp] at hseg
    cases hseg
  · simp only [hp] at hseg
    by_cases hv : 0 < v
    · rw [if_pos hv, Option.some_inj] at hseg
      omega
    · rw [if_neg hv] at hseg
      cases hseg

/-! ### Explicit-distribution parser (`handleGenerate`, ExamArchive.tsx lines 688-697) -/

/-- One comma-separated segment: trim, split on `x`, `parseInt` both parts;
kept only when there are exactly two parts and neither parses to `NaN`. -/
def parseSegment (seg : String) : Option (Int × Int) :=
  match (jsSplit 'x' (jsTrim seg)).map jsParseInt with
  | [some a, some b] => some (a, b)
  | _ => none

/-- The mark-distribution string parser (lines 689-691). -/
def parseMarkDistribution (s : String) : List (Int × Int) :=
  (jsSplit ',' s).filterMap parseSegment

/-- Outcome of distribution mode: the format-error toast fires iff no segment
survived and the input is non-blank (lines 693-697); otherwise generation
proceeds with the surviving pairs. -/
inductive DistParseOutcome where
  | formatError : DistParseOutcome
  | ok : List (Int × Int) → DistParseOutcome
deriving DecidableEq

/-- Distribution-mode front end of `handleGenerate` (lines 688-697). -/
def distributionMode (s : String) : DistParseOutcome :=
  let distribution := parseMarkDistribution s
  if distribution.length = 0 ∧ jsTrim s ≠ "" then .formatError
  else .ok distribution

/-! ### Bank sampling (`generateFromBank`, ExamArchive.tsx lines 634-665) -/

/-- The fields of a bank question that the generator core reads (`id`,
`class`, `marks`, `usedIn`); all other fields of the source's `Question`
record are opaque to it. `usedIn` entries are opaque too: only emptiness is
tested, so they are modelled by a list of strings. -/
structure Question where
  id : String
  cls : Int
  marks : Int
  usedIn : List String
deriving DecidableEq

/-- The working pool (lines 635-638): bank questions of the selected class,
restricted to never-used ones when `avoidPrevious` is set. -/
def sourcePoolOf (questions : List Question) (selectedClass : Int)
    (avoidPrevious : Bool) : List Question :=
  let p := questions.filter fun q => decide (q.cls = selectedClass)
  if avoidPrevious then p.filter fun q => q.usedIn.isEmpty else p

/-- The `requiredCounts` map (lines 640-643) as its entry list:
mark values in first-insertion order, each with the summed count. -/
def requiredCounts (dist : List (Int × Int)) : List (Int × Int) :=
  (dedupFirst (dist.map Prod.snd)).map fun m =>
    (m, ((dist.filter fun g => decide (g.2 = m)).map Prod.fst).sum)

/-- The aggregated deficiency messages (lines 645-651), one per under-supplied
mark value, in `requiredCounts` entry order. -/
def missingMessages (pool : List Question) (dist : List (Int × Int)) : List String :=
  (requiredCounts dist).filterMap fun e =>
    let availableCount := (pool.filter fun q => decide (q.marks = e.1)).length
    if (availableCount : Int) < e.2 then
      some s!"need {e.2} for {e.1} marks (found {availableCount})"
    else none

/-- The selection loop (lines 657-663): per group, filter the current pool to
the group's mark value, shuffle (`sort(() => 0.5 - Math.random())`, modelled
by the permutation parameter `shuffle`), take the first `count`
(`slice(0, count)` with JS negative-index semantics), append, and drop the
selected ids from the working pool. -/
def selectLoop (shuffle : Nat → List Question → List Question) :
    Nat → List Question → List (Int × Int) → List Question
  | _, _, [] => []
  | k, pool, (count, marks) :: rest =>
    let suitableQuestions := pool.filter fun q => decide (q.marks = marks)
    let selected := jsSlice0 (shuffle k suitableQuestions) count
    selected ++ selectLoop shuffle (k + 1)
      (pool.filter fun q => ! selected.any fun s => decide (s.id = q.id)) rest

/-- Result of `generateFromBank`: `{ questions }` or `{ error }`. -/
inductive BankResult where
  | ok : List Question → BankResult
  | error : String → BankResult
deriving DecidableEq

/-- `generateFromBank` (ExamArchive.tsx lines 634-665). -/
def generateFromBank (questions : List Question) (selectedClass : Int)
    (avoidPrevious : Bool) (shuffle : Nat → List Question → List Question)
    (dist : List (Int × Int)) : BankResult :=
  let sourcePool := sourcePoolOf questions selectedClass avoidPrevious
  let missing := missingMessages sourcePool dist
  if missing.length > 0 then
    .error ("Not enough questions in bank: " ++ String.intercalate "; " missing ++ ".")
  else .ok (selectLoop shuffle 0 sourcePool dist)

/-! ### AI orchestration (`handleGenerate`, ExamArchive.tsx lines 759-891) -/

/-- Per-group request partition (lines 777-794). The source defaults an empty
category selection to `['Short Answer']` (line 777); with a single category
that category receives the whole count, otherwise the count is divided with
`base = floor(count/numTypes)` and one extra for the first `count % numTypes`
categories, zero-count requests being skipped. `count` is a `Nat` because the
orchestration loop skips groups with `count <= 0` (line 775) before
partitioning. -/
def requestsToMake (aiQuestionType : List String) (count : Nat) : List (Nat × String) :=
  let selectedTypes := if aiQuestionType.isEmpty then ["Short Answer"] else aiQuestionType
  if selectedTypes.length ≤ 1 then [(count, selectedTypes.headD "")]
  else
    let numTypes := selectedTypes.length
    let baseCount := count / numTypes
    let remainder := count % numTypes
    (List.range numTypes).filterMap fun i =>
      let subCount := baseCount + (if i < remainder then 1 else 0)
      if subCount > 0 then some (subCount, selectedTypes.getD i "") else none

/-- The flat sequence of external requests of one AI invocation: groups with
`count ≤ 0` are skipped (line 775), the rest are partitioned in order; each
request is tagged with its group's mark value. -/
def requestPlan (aiQuestionType : List String) (dist : List (Int × Int)) :
    List (Int × Nat × String) :=
  ((dist.filter fun g => decide (0 < g.1)).map fun g =>
    (requestsToMake aiQuestionType g.1.toNat).map fun r => (g.2, r)).join

/-- The delay/accumulation trace of the request loop (lines 796-835): for each
request, whether the 1500 ms delay was awaited (`finalQuestions.length > 0`,
line 797) together with the number of questions produced so far; `sizes k` is
the length of the batch the external collaborator returns for the `k`-th
request of the run (batches are appended exactly when non-empty, lines
816-834, which changes the accumulator by `sizes k` either way). -/
def delayTrace (sizes : Nat → Nat) :
    List (Int × Nat × String) → Nat → Nat → List (Bool × Nat)
  | [], _, _ => []
  | _ :: rest, k, produced =>
    (decide (produced > 0), produced) :: delayTrace sizes rest (k + 1) (produced + sizes k)

/-! ### AI failure classification and fallback (ExamArchive.tsx lines 841-875) -/

/-- The shape of a caught AI-path error, as probed by the handler:
`error?.error?.status`, `error?.error?.code`, and `error.message` when it is
a string. -/
structure CaughtError where
  errorStatus : Option String
  errorCode : Option Int
  message : Option String
deriving DecidableEq

/-- The fields the handler reads out of `JSON.parse` of the string-embedded
fragment. -/
structure ParsedError where
  errorStatus : Option String
  errorCode : Option Int
deriving DecidableEq

/-- Quota classification (lines 844-857). `jsonParse` models the host's
`JSON.parse`, `none` standing for a parse throw (swallowed by the inner
`catch`). -/
def isQuotaError (jsonParse : String → Option ParsedError) (e : CaughtError) : Bool :=
  if e.errorStatus = some "RESOURCE_EXHAUSTED" ∨ e.errorCode = some 429 then true
  else
    match e.message with
    | some msg =>
      if strIncludesAux ("429".data) msg.data then
        match jsonParse (substringFromBrace msg) with
        | some pe =>
            decide (pe.errorStatus = some "RESOURCE_EXHAUSTED") || decide (pe.errorCode = some 429)
        | none => false
      else false
    | none => false

/-- The toasts the catch handler can show, in order. -/
inductive ToastKind where
  | apiQuotaError : ToastKind
  | apiError : ToastKind
  | fallbackToBank : ToastKind
  | bankError : String → ToastKind
  | fallbackSuccess : ToastKind
deriving DecidableEq

/-- Observable outcome of the catch handler. -/
structure CatchOutcome where
  toasts : List ToastKind
  fallbackInvoked : Bool
  paper : Option (List Question)
deriving DecidableEq

/-- The AI-path catch handler (lines 841-875): classify the error, show the
quota-specific or generic toast accordingly, then — unconditionally — show
the fallback notice and run `generateFromBank` on the same distribution,
surfacing its deficiency error or its questions as the generated paper. -/
def aiCatchHandler (jsonParse : String → Option ParsedError) (e : CaughtError)
    (questions : List Question) (selectedClass : Int) (avoidPrevious : Bool)
    (shuffle : Nat → List Question → List Question) (dist : List (Int × Int)) :
    CatchOutcome :=
  let classToast := if isQuotaError jsonParse e then ToastKind.apiQuotaError
    else ToastKind.apiError
  match generateFromBank questions selectedClass avoidPrevious shuffle dist with
  | .error msg =>
      { toasts := [classToast, .fallbackToBank, .bankError msg]
        fallbackInvoked := true
        paper := none }
  | .ok qs =>
      { toasts := [classToast, .fallbackToBank, .fallbackSuccess]
        fallbackInvoked := true
        paper := some qs }

/-! ### Heap model of the array mutations (for the frame-effect claim)

JS arrays are references into a heap; `filter` allocates a fresh array,
`push` writes through an existing reference. The two generation paths are
re-run against this heap to show the bank array is never written. -/

/-- A heap of question arrays; a reference is an index. -/
structure Heap where
  arrays : List (List Question)
deriving DecidableEq

/-- Dereference (unallocated references read as empty). -/
def readRef (h : Heap) (r : Nat) : List Question := h.arrays.getD r []

/-- The heap after allocating a fresh array, as performed by
`Array.prototype.filter` and by array literals. -/
def allocHeap (h : Heap) (v : List Question) : Heap := ⟨h.arrays ++ [v]⟩

/-- The reference an allocation on `h` returns: the next free index. -/
def freshRef (h : Heap) : Nat := h.arrays.length

/-- In-place update of an existing array, as performed by
`Array.prototype.push`. -/
def writeRef (h : Heap) (r : Nat) (v : List Question) : Heap :=
  ⟨h.arrays.set r v⟩

/-- Heap rendition of the `generateFromBank` selection loop (lines 657-663):
`filter` allocates the successive working pools, `push(...selected)` writes
through the accumulator reference. (`suitableQuestions` is also a fresh
`filter` result, so its in-place `sort` touches no pre-existing array; it is
kept as a value here.) -/
def selectLoopHeap (shuffle : Nat → List Question → List Question) :
    List (Int × Int) → Heap → Nat → Nat → Nat → Heap
  | [], h, _, _, _ => h
  | (count, marks) :: rest, h, k, poolRef, accRef =>
    let suitableQuestions := (readRef h poolRef).filter fun q => decide (q.marks = marks)
    let selected := jsSlice0 (shuffle k suitableQuestions) count
    let h1 := writeRef h accRef (readRef h accRef ++ selected)
    let h2 := allocHeap h1
      ((readRef h1 poolRef).filter fun q => ! selected.any fun s => decide (s.id = q.id))
    selectLoopHeap shuffle rest h2 (k + 1) (freshRef h1) accRef

/-- Heap rendition of `generateFromBank` (lines 634-665): the bank is read
through `bankRef`; the working pool and the result accumulator are fresh
allocations. Returns the final heap and the result. -/
def generateFromBankHeap (shuffle : Nat → List Question → List Question)
    (h : Heap) (bankRef : Nat) (selectedClass : Int) (avoidPrevious : Bool)
    (dist : List (Int × Int)) : Heap × BankResult :=
  let h1 := allocHeap h ((readRef h bankRef).filter fun q => decide (q.cls = selectedClass))
  let p1 := freshRef h
  let h2 := if avoidPrevious then
      allocHeap h1 ((readRef h1 p1).filter fun q => q.usedIn.isEmpty)
    else h1
  let poolRef := if avoidPrevious then freshRef h1 else p1
  let missing := missingMessages (readRef h2 poolRef) dist
  if missing.length > 0 then
    (h2, .error ("Not enough questions in bank: " ++ String.intercalate "; " missing ++ "."))
  else
    let h3 := allocHeap h2 []
    let accRef := freshRef h2
    let h4 := selectLoopHeap shuffle dist h3 0 poolRef accRef
    (h4, .ok (readRef h4 accRef))

/-- Heap rendition of the AI request loop (lines 796-835): each successful
non-empty batch is pushed onto the invocation-local `finalQuestions`
accumulator and onto the invocation-local `existingQuestionPool`; nothing
else is written. `batches k` is the (already mapped) batch of the `k`-th
request. -/
def aiOrchLoopHeap (batches : Nat → List Question) :
    List (Int × Nat × String) → Heap → Nat → Nat → Nat → Heap
  | [], h, _, _, _ => h
  | _ :: rest, h, k, poolRef, accRef =>
    let newQuestions := batches k
    let h1 := writeRef h accRef (readRef h accRef ++ newQuestions)
    let h2 := writeRef h1 poolRef (readRef h1 poolRef ++ newQuestions)
    aiOrchLoopHeap batches rest (if newQuestions.isEmpty then h else h2) (k + 1)
      poolRef accRef

/-- Heap rendition of the AI orchestration path of `handleGenerate` (lines
767-836): `existingQuestionPool` is a fresh `filter` of the bank (lines
767-770), `finalQuestions` starts empty (line 772), then the request loop
runs over the request plan. Returns the final heap and the accumulator
reference. -/
def aiOrchestrationHeap (batches : Nat → List Question) (h : Heap) (bankRef : Nat)
    (selectedClass : Int) (avoidPrevious : Bool) (aiQuestionType : List String)
    (dist : List (Int × Int)) : Heap × Nat :=
  let h1 := allocHeap h ((readRef h bankRef).filter fun q =>
    decide (q.cls = selectedClass) && (if avoidPrevious then q.usedIn.isEmpty else true))
  let poolRef := freshRef h
  let h2 := allocHeap h1 []
  let accRef := freshRef h1
  (aiOrchLoopHeap batches (requestPlan aiQuestionType dist) h2 0 poolRef accRef, accRef)

/-! ### Supporting lemmas -/

theorem map_congr_mem {α β : Type} {l : List α} {f g : α → β}
    (h : ∀ a ∈ l, f a = g a) : l.map f = l.map g :=
  List.map_congr_left h

theorem sum_filter_split (l : List Nat) (f : Nat → Nat) (x : Nat) :
    ((l.map f).sum)
      = (((l.filter fun y => decide (y ≠ x)).map f).sum)
        + (((l.filter fun y => decide (y = x)).map f).sum) := by
  induction l with
  | nil => rfl
  | cons y ys ih =>
    by_cases hy : y = x
    · subst hy
      simp only [List.filter_cons, decide_eq_true_eq]
      simp only [decide_not]
      simp [ih]
      omega
    · simp only [List.filter_cons, decide_eq_true_eq]
      simp [hy, ih]
      omega

theorem filter_eq_nil_of_not_mem {l : List Nat} {x : Nat} (h : x ∉ l) :
    (l.filter fun y => decide (y = x)) = [] := by
  rw [List.filter_eq_nil_iff]
  intro a ha hax
  rw [decide_eq_true_eq] at hax
  subst hax
  exact h ha

theorem filter_eq_single_of_nodup {l : List Nat} {x : Nat}
    (hnd : l.Nodup) (hx : x ∈ l) :
    (l.filter fun y => decide (y = x)) = [x] := by
  induction l with
  | nil => cases hx
  | cons y ys ih =>
    rw [List.nodup_cons] at hnd
    rcases List.mem_cons.mp hx with rfl | hx
    · rw [List.filter_cons_of_pos (by simp), filter_eq_nil_of_not_mem hnd.1]
    · have hyx : y ≠ x := by
        rintro rfl
        exact hnd.1 hx
      rw [List.filter_cons_of_neg (by simpa using hyx)]
      exact ih hnd.2 hx

/-- The `(count, markValue)` aggregation preserves the total:
the sum of `count * markValue` over `aggregate l` is the sum of `l`. -/
theorem sum_aggregate (l : List Nat) :
    ((aggregate l).map fun p => p.1 * p.2).sum = l.sum := by
  have main : ∀ l : List Nat, ((dedupFirst l).map fun m => l.count m * m).sum = l.sum := by
    intro l
    induction l with
    | nil => rfl
    | cons x xs ih =>
      rw [dedupFirst]
      simp only [List.map_cons, List.sum_cons]
      have hcong : ((dedupFirst xs).filter fun y => decide (y ≠ x)).map
            (fun m => (x :: xs).count m * m)
          = ((dedupFirst xs).filter fun y => decide (y ≠ x)).map
            (fun m => xs.count m * m) := by
        apply map_congr_mem
        intro m hm
        rw [List.mem_filter, decide_eq_true_eq] at hm
        have hxm : ¬ x = m := fun hc => hm.2 hc.symm
        rw [List.count_cons, if_neg (by simpa using hxm), Nat.add_zero]
      rw [hcong]
      have hsplit := sum_filter_split (dedupFirst xs) (fun m => xs.count m * m) x
      rw [List.count_cons, if_pos (by simp)]
      by_cases hx : x ∈ xs
      · have hxd : x ∈ dedupFirst xs := (mem_dedupFirst xs x).mpr hx
        rw [filter_eq_single_of_nodup (nodup_dedupFirst xs) hxd] at hsplit
        simp only [List.map_cons, List.map_nil, List.sum_cons, List.sum_nil] at hsplit
        rw [ih] at hsplit
        have : (xs.count x + 1) * x = xs.count x * x + x := by ring
        omega
      · have hxd : x ∉ dedupFirst xs := fun hc => hx ((mem_dedupFirst xs x).mp hc)
        rw [filter_eq_nil_of_not_mem hxd] at hsplit
        simp only [List.map_nil, List.sum_nil, Nat.add_zero] at hsplit
        rw [ih] at hsplit
        rw [List.count_eq_zero_of_not_mem hx]
        omega
  rw [aggregate, List.map_map]
  exact main l

theorem sum_cast_pairs (l : List (Nat × Nat)) :
    (((l.map fun p => ((p.1 : Int), (p.2 : Int))).map fun q => q.1 * q.2).sum)
      = (((l.map fun p => p.1 * p.2).sum : Nat) : Int) := by
  induction l with
  | nil => rfl
  | cons p ps ih =>
    simp only [List.map_cons, List.sum_cons, ih]
    push_cast
    ring

theorem sum_toNat_of_nonneg {l : List Int} (h : ∀ x ∈ l, 0 ≤ x) :
    (l.map Int.toNat).sum = l.sum.toNat := by
  induction l with
  | nil => rfl
  | cons x xs ih =>
    simp only [List.map_cons, List.sum_cons]
    rw [Int.toNat_add (h x (List.mem_cons_self _ _))
      (List.sum_nonneg fun y hy => h y (List.mem_cons_of_mem _ hy))]
    rw [ih fun y hy => h y (List.mem_cons_of_mem _ hy)]

theorem mapToNat_pos {marks : List Int} (hpos : ∀ m ∈ marks, 0 < m) :
    ∀ m ∈ marks.map Int.toNat, 0 < m := by
  intro m hm
  rw [List.mem_map] at hm
  obtain ⟨x, hx, rfl⟩ := hm
  have := hpos x hx
  omega

theorem solveCore_ok_sum (t : Int) (uniqueMarks : List Int) (rand : Nat → Nat)
    (dist : List (Int × Int)) (h : solveCore t uniqueMarks rand = .ok dist) :
    0 < t ∧ (dist.map fun p => p.1 * p.2).sum = t := by
  by_cases hc : t ≤ 0 ∨ uniqueMarks.isEmpty
  · rw [solveCore, if_pos hc] at h
    cases h
  · rw [solveCore, if_neg hc] at h
    push_neg at hc
    refine ⟨by omega, ?_⟩
    by_cases hdp : dpAt (uniqueMarks.map Int.toNat) t.toNat = true
    · rw [if_pos hdp] at h
      rcases hr : reconstruct (uniqueMarks.map Int.toNat) rand 0 t.toNat with _ | r
      · rw [hr] at h
        cases h
      · rw [hr] at h
        have hd : dist = (aggregate r).map fun p => ((p.1 : Int), (p.2 : Int)) := by
          cases h
          rfl
        subst hd
        rw [sum_cast_pairs, sum_aggregate, reconstruct_sum _ _ _ _ _ hr]
        exact Int.toNat_of_nonneg (by omega)
    · rw [if_neg hdp] at h
      cases h

theorem solveCore_ne_stuck (t : Int) (uniqueMarks : List Int) (rand : Nat → Nat)
    (hpos : ∀ m ∈ uniqueMarks, 0 < m) : solveCore t uniqueMarks rand ≠ .stuck := by
  intro h
  by_cases hc : t ≤ 0 ∨ uniqueMarks.isEmpty
  · rw [solveCore, if_pos hc] at h
    cases h
  · rw [solveCore, if_neg hc] at h
    by_cases hdp : dpAt (uniqueMarks.map Int.toNat) t.toNat = true
    · rw [if_pos hdp] at h
      rcases hr : reconstruct (uniqueMarks.map Int.toNat) rand 0 t.toNat with _ | r
      · exact reconstruct_ne_none _ rand (mapToNat_pos hpos) _ 0 hdp hr
      · rw [hr] at h
        cases h
    · rw [if_neg hdp] at h
      cases h

theorem solveCore_complete (t : Int) (uniqueMarks : List Int) (rand : Nat → Nat)
    (hpos : ∀ m ∈ uniqueMarks, 0 < m) (htpos : 0 < t)
    (hreach : ∃ l : List Int, (∀ x ∈ l, x ∈ uniqueMarks) ∧ l.sum = t) :
    ∃ d, solveCore t uniqueMarks rand = .ok d := by
  obtain ⟨l, hl, hsum⟩ := hreach
  have hlne : l ≠ [] := by
    rintro rfl
    simp at hsum
    omega
  have hne : ¬ uniqueMarks.isEmpty := by
    rw [List.isEmpty_iff]
    intro hc
    match l, hlne with
    | x :: xs, _ =>
      have := hl x (List.mem_cons_self _ _)
      rw [hc] at this
      cases this
  have hc : ¬ (t ≤ 0 ∨ uniqueMarks.isEmpty = true) := by
    push_neg
    exact ⟨by omega, by simpa using hne⟩
  have hdp : dpAt (uniqueMarks.map Int.toNat) t.toNat = true := by
    rw [dpAt_iff_reachable _ (mapToNat_pos hpos)]
    refine ⟨l.map Int.toNat, ?_, ?_⟩
    · intro y hy
      rw [List.mem_map] at hy ⊢
      obtain ⟨x, hx, rfl⟩ := hy
      exact ⟨x, hl x hx, rfl⟩
    · rw [sum_toNat_of_nonneg fun x hx => le_of_lt (hpos x (hl x hx)), hsum]
  rw [solveCore, if_neg hc, if_pos hdp]
  rcases hr : reconstruct (uniqueMarks.map Int.toNat) rand 0 t.toNat with _ | r
  · exact absurd hr (reconstruct_ne_none _ rand (mapToNat_pos hpos) _ 0 hdp)
  · exact ⟨_, rfl⟩

theorem sum_cast_nat (l : List Nat) :
    ((l.map fun n : Nat => (n : Int)).sum) = ((l.sum : Nat) : Int) := by
  induction l with
  | nil => rfl
  | cons x xs ih =>
    rw [List.map_cons, List.sum_cons, List.sum_cons, ih]
    push_cast
    ring

theorem solveCore_malformed_iff (t : Int) (uniqueMarks : List Int) (rand : Nat → Nat) :
    solveCore t uniqueMarks rand = .malformed ↔ (t ≤ 0 ∨ uniqueMarks = []) := by
  rw [solveCore]
  by_cases hc : t ≤ 0 ∨ uniqueMarks.isEmpty
  · rw [if_pos hc]
    constructor
    · intro _
      rcases hc with h | h
      · exact Or.inl h
      · exact Or.inr (List.isEmpty_iff.mp h)
    · intro _
      rfl
  · rw [if_neg hc]
    constructor
    · intro h
      by_cases hdp : dpAt (uniqueMarks.map Int.toNat) t.toNat = true
      · rw [if_pos hdp] at h
        rcases hr : reconstruct (uniqueMarks.map Int.toNat) rand 0 t.toNat with _ | r
        · rw [hr] at h
          cases h
        · rw [hr] at h
          cases h
      · rw [if_neg hdp] at h
        cases h
    · intro h
      exfalso
      apply hc
      rcases h with h | h
      · exact Or.inl h
      · exact Or.inr (by rw [h]; rfl)

theorem solveCore_infeasible (t : Int) (uniqueMarks : List Int) (rand : Nat → Nat)
    (hpos : ∀ m ∈ uniqueMarks, 0 < m) (htpos : 0 < t) (hne : uniqueMarks ≠ [])
    (hnr : ¬ ∃ l : List Int, (∀ x ∈ l, x ∈ uniqueMarks) ∧ l.sum = t) :
    solveCore t uniqueMarks rand = .infeasible := by
  have hc : ¬ (t ≤ 0 ∨ uniqueMarks.isEmpty = true) := by
    push_neg
    refine ⟨by omega, ?_⟩
    simpa [List.isEmpty_iff] using hne
  have hdp : ¬ dpAt (uniqueMarks.map Int.toNat) t.toNat = true := by
    intro hdp
    apply hnr
    obtain ⟨ln, hmem, hsum⟩ := (dpAt_iff_reachable _ (mapToNat_pos hpos) _).mp hdp
    refine ⟨ln.map fun n : Nat => (n : Int), ?_, ?_⟩
    · intro y hy
      rw [List.mem_map] at hy
      obtain ⟨m0, hm0, hme⟩ := hy
      subst hme
      have hm' := hmem m0 hm0
      rw [List.mem_map] at hm'
      obtain ⟨x, hx, hxe⟩ := hm'
      have hx0 := hpos x hx
      have hnx : ((m0 : Int)) = x := by omega
      rw [hnx]
      exact hx
    · rw [sum_cast_nat, hsum, Int.toNat_of_nonneg (by omega)]
  rw [solveCore, if_neg hc, if_neg hdp]

/-! ### Claim theorems -/

/-- C1: solver feasibility soundness. Whenever `findDistribution` returns a
sequence of `(count, markValue)` pairs rather than reporting malformed input,
infeasibility, or the internal stuck condition, the sum of
`count * markValue` over the returned pairs equals the parsed positive target
exactly, for every random stream. -/
theorem C1_solver_feasibility_soundness (totalMarks allowedMarks : String)
    (rand : Nat → Nat) (dist : List (Int × Int))
    (h : findDistribution totalMarks allowedMarks rand = .ok dist) :
    ∃ t : Int, jsParseInt totalMarks = some t ∧ 0 < t ∧
      (dist.map fun p => p.1 * p.2).sum = t := by
  rcases ht : jsParseInt totalMarks with _ | t
  · simp only [findDistribution, ht] at h
    cases h
  · simp only [findDistribution, ht] at h
    obtain ⟨htpos, hsum⟩ := solveCore_ok_sum t _ rand dist h
    exact ⟨t, rfl, htpos, hsum⟩

/-- Witness for C1 at target 7 with allowed marks {2, 5}: the solver returns
`[(1, 2), (1, 5)]`, and its weighted sum is the target. -/
theorem C1_witness :
    findDistribution "7" "2,5" (fun _ => 0) = .ok [(1, 2), (1, 5)] ∧
    (∃ t : Int, jsParseInt "7" = some t ∧ 0 < t ∧
      (([((1 : Int), (2 : Int)), (1, 5)].map fun p => p.1 * p.2).sum) = t) :=
  ⟨by decide, C1_solver_feasibility_soundness "7" "2,5" (fun _ => 0) [(1, 2), (1, 5)]
    (by decide)⟩

/-- C2: solver completeness and unreachability of the stuck branch. The
internal-invariant-violation branch of the reconstruction loop is unreachable
for every input and every random stream; and whenever the parsed target is
positive and reachable as a sum of the (positive, parsed) allowed marks, the
solver returns a sequence rather than reporting infeasibility. -/
theorem C2_solver_completeness_no_stuck :
    (∀ (totalMarks allowedMarks : String) (rand : Nat → Nat),
      findDistribution totalMarks allowedMarks rand ≠ .stuck) ∧
    (∀ (totalMarks allowedMarks : String) (rand : Nat → Nat) (t : Int),
      jsParseInt totalMarks = some t → 0 < t →
      (∃ l : List Int, (∀ x ∈ l, x ∈ parseAllowedMarks allowedMarks) ∧ l.sum = t) →
      ∃ d, findDistribution totalMarks allowedMarks rand = .ok d) := by
  constructor
  · intro tm am rand h
    rcases ht : jsParseInt tm with _ | t
    · simp only [findDistribution, ht] at h
      cases h
    · simp only [findDistribution, ht] at h
      exact solveCore_ne_stuck t _ rand (parseAllowedMarks_pos am) h
  · intro tm am rand t ht htpos hreach
    simp only [findDistribution, ht]
    exact solveCore_complete t _ rand (parseAllowedMarks_pos am) htpos hreach

/-- Witness for C2: 7 is reachable from {2, 5} (via 2 + 5), and the solver
indeed returns a sequence. -/
theorem C2_witness :
    ∃ d, findDistribution "7" "2,5" (fun _ => 0) = .ok d :=
  C2_solver_completeness_no_stuck.2 "7" "2,5" (fun _ => 0) 7 (by decide) (by decide)
    ⟨[2, 5], by decide, by decide⟩

/-- C8 counterexample: the allowed-marks input "2,-1" contains the allowed
value -1 ≤ 0 and the target 4 is positive and well formed, yet the solver
does not report malformed input: the non-positive value is silently filtered
out (line 701) and a distribution over the remaining marks is returned. -/
theorem C8_counterexample :
    ((jsSplit ',' "2,-1").map fun seg => jsParseInt (jsTrim seg))
        = [some 2, some (-1)] ∧
    jsParseInt "4" = some 4 ∧
    findDistribution "4" "2,-1" (fun _ => 0) = .ok [(2, 2)] ∧
    findDistribution "4" "2,-1" (fun _ => 0) ≠ .malformed := by decide

/-- C8 as amended: the solver reports malformed input exactly when the target
fails to parse or is non-positive, or when no allowed value survives the
positive-integer filter (individually non-positive or unparseable allowed
values are silently discarded, not fatal); and on well-formed inputs whose
target is unreachable it reports the distinct infeasible outcome instead. -/
theorem C8_amended_malformed_contract (totalMarks allowedMarks : String)
    (rand : Nat → Nat) :
    (findDistribution totalMarks allowedMarks rand = .malformed ↔
      jsParseInt totalMarks = none ∨
      (∃ t : Int, jsParseInt totalMarks = some t ∧ t ≤ 0) ∨
      parseAllowedMarks allowedMarks = []) ∧
    (∀ t : Int, jsParseInt totalMarks = some t → 0 < t →
      parseAllowedMarks allowedMarks ≠ [] →
      (¬ ∃ l : List Int, (∀ x ∈ l, x ∈ parseAllowedMarks allowedMarks) ∧ l.sum = t) →
      findDistribution totalMarks allowedMarks rand = .infeasible) := by
  constructor
  · rcases ht : jsParseInt totalMarks with _ | t
    · simp only [findDistribution, ht]
      simp
    · simp only [findDistribution, ht]
      rw [solveCore_malformed_iff]
      constructor
      · rintro (h | h)
        · exact Or.inr (Or.inl ⟨t, rfl, h⟩)
        · exact Or.inr (Or.inr h)
      · rintro (h | ⟨t', ht', hle⟩ | h)
        · cases h
        · rw [Option.some_inj] at ht'
          subst ht'
          exact Or.inl hle
        · exact Or.inr h
  · intro t ht htpos hne hnr
    simp only [findDistribution, ht]
    exact solveCore_infeasible t _ rand (parseAllowedMarks_pos allowedMarks) htpos hne hnr

/-- Witness for the amended C8: target 3 with allowed marks {2} is well
formed but unreachable, and the solver reports the infeasible outcome. -/
theorem C8_witness :
    findDistribution "3" "2" (fun _ => 0) = .infeasible :=
  (C8_amended_malformed_contract "3" "2" (fun _ => 0)).2 3 (by decide) (by decide)
    (by decide)
    (by
      rintro ⟨l, hl, hs⟩
      have h2 : ∀ x ∈ l, x = 2 := by
        intro x hx
        have hm := hl x hx
        rw [show parseAllowedMarks "2" = [2] by decide] at hm
        simpa using hm
      have hrep := List.eq_replicate_of_mem h2
      rw [hrep, List.sum_replicate, nsmul_eq_mul] at hs
      omega)

/-- Sample bank questions for concrete witnesses: two unused 5-mark and one
unused 10-mark question of class 10. -/
def qA : Question := ⟨"qA", 10, 5, []⟩

def qB : Question := ⟨"qB", 10, 5, []⟩

def qC : Question := ⟨"qC", 10, 10, []⟩

/-- C3 counterexample: an AI-path error carrying no quota signature at all
(no structured status or code, no message) is classified as non-quota, yet
the catch handler still invokes the bank-sampling fallback and reports its
outcome — contradicting the claim that non-quota failures trigger no
automatic fallback. -/
theorem C3_counterexample :
    isQuotaError (fun _ => none) ⟨none, none, none⟩ = false ∧
    (aiCatchHandler (fun _ => none) ⟨none, none, none⟩ [qA, qB] 10 true
      (fun _ l => l) [(2, 5)]).fallbackInvoked = true ∧
    (aiCatchHandler (fun _ => none) ⟨none, none, none⟩ [qA, qB] 10 true
      (fun _ l => l) [(2, 5)]).toasts
      = [ToastKind.apiError, ToastKind.fallbackToBank, ToastKind.fallbackSuccess] := by
  decide

/-- C3 as amended: on every AI-path failure — quota-classified or not — the
handler surfaces the quota-specific or generic message respectively, then
always shows the fallback notice and always invokes the bank-sampling
fallback; the quota classification affects only which first toast is shown,
never whether the fallback runs. -/
theorem C3_amended_fallback_always (jsonParse : String → Option ParsedError)
    (e : CaughtError) (questions : List Question) (selectedClass : Int)
    (avoidPrevious : Bool) (shuffle : Nat → List Question → List Question)
    (dist : List (Int × Int)) :
    (aiCatchHandler jsonParse e questions selectedClass avoidPrevious shuffle
        dist).fallbackInvoked = true ∧
    (aiCatchHandler jsonParse e questions selectedClass avoidPrevious shuffle
        dist).toasts.head? = some (if isQuotaError jsonParse e then
          ToastKind.apiQuotaError else ToastKind.apiError) ∧
    (aiCatchHandler jsonParse e questions selectedClass avoidPrevious shuffle
        dist).toasts.get? 1 = some ToastKind.fallbackToBank := by
  cases hb : generateFromBank questions selectedClass avoidPrevious shuffle dist with
  | ok qs => simp [aiCatchHandler, hb]
  | error msg => simp [aiCatchHandler, hb]

theorem parseSegment_eq_none_iff (seg : String) :
    parseSegment seg = none ↔
      ¬ ∃ a b : Int, (jsSplit 'x' (jsTrim seg)).map jsParseInt = [some a, some b] := by
  rw [parseSegment]
  generalize (jsSplit 'x' (jsTrim seg)).map jsParseInt = lst
  rcases lst with _ | ⟨a, _ | ⟨b, rest⟩⟩
  · simp
  · rcases a with _ | a <;> simp
  · rcases rest with _ | ⟨c, rest⟩
    · rcases a with _ | a <;> rcases b with _ | b <;> simp
    · rcases a with _ | a <;> rcases b with _ | b <;> simp

/-- C10: the explicit-distribution parser silently discards every
comma-separated segment that does not split on `x` into exactly two
`parseInt`-parseable parts, accepts surviving segments with zero or negative
count or mark value (no positivity check in this mode), and reports a format
error exactly when the input is non-blank after trimming and no segment at
all survives. In particular `"2x5,garbage,3x-1"` is accepted and yields
`[(2, 5), (3, -1)]`. -/
theorem C10_distribution_parser_lenient (s : String) :
    parseMarkDistribution "2x5,garbage,3x-1" = [(2, 5), (3, -1)] ∧
    distributionMode "2x5,garbage,3x-1" = .ok [(2, 5), (3, -1)] ∧
    distributionMode "0x-2" = .ok [(0, -2)] ∧
    (distributionMode s = .formatError ↔
      jsTrim s ≠ "" ∧ ∀ seg ∈ jsSplit ',' s, ¬ ∃ a b : Int,
        (jsSplit 'x' (jsTrim seg)).map jsParseInt = [some a, some b]) := by
  refine ⟨by decide, by decide, by decide, ?_⟩
  simp only [distributionMode]
  by_cases hc : (parseMarkDistribution s).length = 0 ∧ jsTrim s ≠ ""
  · rw [if_pos hc]
    constructor
    · intro _
      refine ⟨hc.2, ?_⟩
      intro seg hseg
      rw [← parseSegment_eq_none_iff]
      have hnil : parseMarkDistribution s = [] := List.length_eq_zero.mp hc.1
      rw [parseMarkDistribution, List.filterMap_eq_nil_iff] at hnil
      exact hnil seg hseg
    · intro _
      rfl
  · rw [if_neg hc]
    constructor
    · intro h
      cases h
    · rintro ⟨h1, h2⟩
      exfalso
      apply hc
      refine ⟨?_, h1⟩
      rw [List.length_eq_zero, parseMarkDistribution, List.filterMap_eq_nil_iff]
      intro seg hseg
      rw [parseSegment_eq_none_iff]
      exact h2 seg hseg

theorem sum_filterMap_subCounts (l : List Nat) (f : Nat → Nat) (g : Nat → String) :
    ((l.filterMap fun i => if 0 < f i then some (f i, g i) else none).map
      Prod.fst).sum = (l.map f).sum := by
  induction l with
  | nil => rfl
  | cons x xs ih =>
    by_cases hx : 0 < f x
    · simp [List.filterMap_cons, hx, ih]
    · simp [List.filterMap_cons, hx, ih]
      omega

theorem sum_range_partition (c r : Nat) :
    ∀ n, ((List.range n).map fun i => c + if i < r then 1 else 0).sum
      = n * c + min r n := by
  intro n
  induction n with
  | zero => simp
  | succ n ih =>
    rw [List.range_succ, List.map_append, List.sum_append, ih]
    simp only [List.map_cons, List.map_nil, List.sum_cons, List.sum_nil]
    rw [Nat.succ_mul]
    split_ifs with h <;> omega

/-- C6: partition evenness. For a non-empty category list: a single category
receives the full count; with more than one category, category `i` receives
`floor(count/n) + 1` when `i < count mod n` and `floor(count/n)` otherwise
(the remainder going to the first categories in list order), zero-count
categories issuing no request; the issued sub-counts always sum to `count`;
and partitioning 7 across 3 categories yields `[3, 2, 2]`. -/
theorem C6_partition_evenness (cats : List String) (count : Nat) (hne : cats ≠ []) :
    (cats.length = 1 → requestsToMake cats count = [(count, cats.headD "")]) ∧
    (1 < cats.length → requestsToMake cats count =
      (List.range cats.length).filterMap fun i =>
        if 0 < count / cats.length + (if i < count % cats.length then 1 else 0) then
          some (count / cats.length + (if i < count % cats.length then 1 else 0),
            cats.getD i "")
        else none) ∧
    ((requestsToMake cats count).map Prod.fst).sum = count ∧
    requestsToMake ["a", "b", "c"] 7 = [(3, "a"), (2, "b"), (2, "c")] := by
  have hie : cats.isEmpty = false := by
    simp [List.isEmpty_iff, hne]
  have h1 : cats.length = 1 → requestsToMake cats count = [(count, cats.headD "")] := by
    intro hl
    simp [requestsToMake, hie, hl]
  have h2 : 1 < cats.length → requestsToMake cats count =
      (List.range cats.length).filterMap fun i =>
        if 0 < count / cats.length + (if i < count % cats.length then 1 else 0) then
          some (count / cats.length + (if i < count % cats.length then 1 else 0),
            cats.getD i "")
        else none := by
    intro hl
    have hnle : ¬ cats.length ≤ 1 := by omega
    simp [requestsToMake, hie, hnle]
  have h3 : ((requestsToMake cats count).map Prod.fst).sum = count := by
    have hlen : 0 < cats.length := List.length_pos.mpr hne
    rcases Nat.lt_or_ge 1 cats.length with hl | hl
    · rw [h2 hl, sum_filterMap_subCounts, sum_range_partition]
      have hmod := Nat.mod_lt count (show 0 < cats.length by omega)
      have hdm := Nat.div_add_mod count cats.length
      omega
    · have hl1 : cats.length = 1 := by omega
      rw [h1 hl1]
      simp
  exact ⟨h1, h2, h3, by decide⟩

/-- Witness for C6 at `count = 7` across three categories. -/
theorem C6_witness :
    ((requestsToMake ["a", "b", "c"] 7).map Prod.fst).sum = 7 :=
  (C6_partition_evenness ["a", "b", "c"] 7 (by decide)).2.2.1

theorem sum_sizes_shift (sizes : Nat → Nat) (i k : Nat) :
    ((List.range (i + 1)).map fun j => sizes (k + j)).sum
      = sizes k + ((List.range i).map fun j => sizes (k + 1 + j)).sum := by
  rw [List.range_succ_eq_map]
  simp only [List.map_cons, List.sum_cons, Nat.add_zero, List.map_map]
  congr 1
  congr 1
  apply map_congr_mem
  intro j hj
  simp only [Function.comp_apply]
  congr 1
  omega

theorem delayTrace_get (sizes : Nat → Nat) :
    ∀ (plan : List (Int × Nat × String)) (k produced i : Nat)
      (h : i < (delayTrace sizes plan k produced).length),
      (delayTrace sizes plan k produced).get ⟨i, h⟩
        = (decide (0 < produced + ((List.range i).map fun j => sizes (k + j)).sum),
           produced + ((List.range i).map fun j => sizes (k + j)).sum) := by
  intro plan
  induction plan with
  | nil =>
    intro k produced i h
    simp [delayTrace] at h
  | cons p rest ih =>
    intro k produced i h
    match i with
    | 0 => simp [delayTrace]
    | i + 1 =>
      have hh : i < (delayTrace sizes rest (k + 1) (produced + sizes k)).length := by
        simpa [delayTrace] using h
      have hstep : (delayTrace sizes (p :: rest) k produced).get ⟨i + 1, h⟩
          = (delayTrace sizes rest (k + 1) (produced + sizes k)).get ⟨i, hh⟩ :=
        List.get_cons_succ
      rw [hstep, ih (k + 1) (produced + sizes k) i hh, sum_sizes_shift]
      simp [Nat.add_assoc]

/-- C7: delay discipline. In the trace of one AI orchestration invocation,
the `k`-th external request is preceded by the fixed delay iff the number of
questions produced by the earlier requests of the run is positive; in
particular the first request is never delayed, and the second request is
delayed whenever the first returned a non-empty batch. -/
theorem C7_delay_iff_produced (aiQuestionType : List String)
    (dist : List (Int × Int)) (sizes : Nat → Nat) :
    (∀ i (h : i < (delayTrace sizes (requestPlan aiQuestionType dist) 0 0).length),
      (delayTrace sizes (requestPlan aiQuestionType dist) 0 0).get ⟨i, h⟩
        = (decide (0 < ((List.range i).map sizes).sum),
           ((List.range i).map sizes).sum)) ∧
    (∀ h0 : 0 < (delayTrace sizes (requestPlan aiQuestionType dist) 0 0).length,
      ((delayTrace sizes (requestPlan aiQuestionType dist) 0 0).get ⟨0, h0⟩).1
        = false) ∧
    (0 < sizes 0 →
      ∀ h1 : 1 < (delayTrace sizes (requestPlan aiQuestionType dist) 0 0).length,
      ((delayTrace sizes (requestPlan aiQuestionType dist) 0 0).get ⟨1, h1⟩).1
        = true) := by
  have key : ∀ i (h : i < (delayTrace sizes (requestPlan aiQuestionType dist) 0 0).length),
      (delayTrace sizes (requestPlan aiQuestionType dist) 0 0).get ⟨i, h⟩
        = (decide (0 < ((List.range i).map sizes).sum),
           ((List.range i).map sizes).sum) := by
    intro i h
    rw [delayTrace_get]
    have hz : ((List.range i).map fun j => sizes (0 + j)) = (List.range i).map sizes := by
      apply map_congr_mem
      intro j hj
      rw [Nat.zero_add]
    rw [hz]
    simp
  refine ⟨key, ?_, ?_⟩
  · intro h0
    rw [key 0 h0]
    simp
  · intro hs h1
    rw [key 1 h1]
    simp [List.range_succ, hs]

/-- Witness for C7: with one category and two single-count groups, the plan
has two requests; with every batch of size 1, the second request is delayed
(and by `C7_delay_iff_produced` the first is not). -/
theorem C7_witness :
    ((delayTrace (fun _ => 1) (requestPlan ["T"] [(1, 5), (1, 10)]) 0 0).get
        ⟨1, by decide⟩).1 = true :=
  (C7_delay_iff_produced ["T"] [(1, 5), (1, 10)] (fun _ => 1)).2.2 (by decide)
    (by decide)

/-- The number of questions of mark value `m` available in a pool. -/
def availableCount (pool : List Question) (m : Int) : Nat :=
  (pool.filter fun q => decide (q.marks = m)).length

/-- The total count required for mark value `m` by a distribution. -/
def requiredCount (dist : List (Int × Int)) (m : Int) : Int :=
  ((dist.filter fun g => decide (g.2 = m)).map Prod.fst).sum

theorem filterMap_if_eq_filter_map {α β : Type} (l : List α) (p : α → Prop)
    [DecidablePred p] (f : α → β) :
    (l.filterMap fun x => if p x then some (f x) else none)
      = (l.filter fun x => decide (p x)).map f := by
  induction l with
  | nil => rfl
  | cons x xs ih =>
    by_cases hx : p x
    · simp [List.filterMap_cons, List.filter_cons, hx, ih]
    · simp [List.filterMap_cons, List.filter_cons, hx, ih]

theorem missingMessages_eq (pool : List Question) (dist : List (Int × Int)) :
    missingMessages pool dist
      = ((dedupFirst (dist.map Prod.snd)).filter fun m =>
          decide ((availableCount pool m : Int) < requiredCount dist m)).map fun m =>
          s!"need {requiredCount dist m} for {m} marks (found {availableCount pool m})" := by
  rw [missingMessages, requiredCounts, List.filterMap_map]
  exact filterMap_if_eq_filter_map _ _ _

/-- C4: sampling deficiency aggregation. `generateFromBank` fails exactly
when some mark value of the distribution is under-supplied — the pool
questions of that mark (of the selected class, restricted to unused ones
when avoid-reuse is set) number fewer than the total count the distribution
requires for it — and the single error message then reports every
under-supplied mark value (in first-occurrence order) together with both its
required and available counts. -/
theorem C4_deficiency_aggregation (questions : List Question) (selectedClass : Int)
    (avoidPrevious : Bool) (shuffle : Nat → List Question → List Question)
    (dist : List (Int × Int)) :
    ((∃ msg, generateFromBank questions selectedClass avoidPrevious shuffle dist
        = .error msg) ↔
      ∃ m ∈ dist.map Prod.snd,
        (availableCount (sourcePoolOf questions selectedClass avoidPrevious) m : Int)
          < requiredCount dist m) ∧
    (∀ msg, generateFromBank questions selectedClass avoidPrevious shuffle dist
        = .error msg →
      msg = "Not enough questions in bank: " ++ String.intercalate "; "
        (((dedupFirst (dist.map Prod.snd)).filter fun m =>
            decide ((availableCount (sourcePoolOf questions selectedClass
              avoidPrevious) m : Int) < requiredCount dist m)).map fun m =>
          s!"need {requiredCount dist m} for {m} marks (found {availableCount (sourcePoolOf questions selectedClass avoidPrevious) m})")
        ++ ".") := by
  have hmem : (missingMessages (sourcePoolOf questions selectedClass avoidPrevious)
        dist ≠ []) ↔
      ∃ m ∈ dist.map Prod.snd,
        (availableCount (sourcePoolOf questions selectedClass avoidPrevious) m : Int)
          < requiredCount dist m := by
    rw [missingMessages_eq]
    rw [ne_eq, List.map_eq_nil, List.filter_eq_nil_iff]
    push_neg
    constructor
    · rintro ⟨m, hm, hcond⟩
      rw [decide_eq_true_eq] at hcond
      exact ⟨m, (mem_dedupFirst _ _).mp hm, hcond⟩
    · rintro ⟨m, hm, hcond⟩
      exact ⟨m, (mem_dedupFirst _ _).mpr hm, by simpa using hcond⟩
  constructor
  · constructor
    · rintro ⟨msg, hmsg⟩
      rw [← hmem]
      intro hnil
      rw [generateFromBank] at hmsg
      rw [if_neg (by simp [hnil])] at hmsg
      cases hmsg
    · intro hdef
      rw [← hmem] at hdef
      exact ⟨_, by rw [generateFromBank, if_pos (by simpa [List.length_pos] using hdef)]⟩
  · intro msg hmsg
    rw [generateFromBank] at hmsg
    by_cases hlen : (missingMessages (sourcePoolOf questions selectedClass
        avoidPrevious) dist).length > 0
    · rw [if_pos hlen] at hmsg
      rw [BankResult.error.injEq] at hmsg
      rw [← hmsg, missingMessages_eq]
    · rw [if_neg hlen] at hmsg
      cases hmsg

/-- Witness for C4 at the spec's example: one unused 5-mark question against
a demand for two 5-mark questions fails with the aggregated deficiency
message. -/
theorem C4_witness :
    ∃ msg, generateFromBank [qA] 10 true (fun _ l => l) [(2, 5)] = .error msg :=
  (C4_deficiency_aggregation [qA] 10 true (fun _ l => l) [(2, 5)]).1.mpr
    ⟨5, by decide, by decide⟩

theorem filter_not_selected_eq (pool selected : List Question)
    (hnd : (pool.map Question.id).Nodup) (hsub : ∀ s ∈ selected, s ∈ pool) :
    (pool.filter fun q => ! selected.any fun s => decide (s.id = q.id))
      = pool.filter fun q => decide (q ∉ selected) := by
  apply List.filter_congr
  intro q hq
  by_cases hmem : q ∈ selected
  · have hany : (selected.any fun s => decide (s.id = q.id)) = true := by
      rw [List.any_eq_true]
      exact ⟨q, hmem, by simp⟩
    simp [hany, hmem]
  · have hany : (selected.any fun s => decide (s.id = q.id)) = false := by
      rw [List.any_eq_false]
      intro s hs
      simp only [decide_eq_true_eq]
      intro heq
      have hsq := List.inj_on_of_nodup_map hnd (hsub s hs) hq heq
      exact hmem (hsq ▸ hs)
    simp [hany, hmem]

theorem selected_append_filter_perm (pool selected : List Question)
    (hpool : pool.Nodup) (hsel : selected.Nodup) (hsub : ∀ s ∈ selected, s ∈ pool) :
    (selected ++ pool.filter fun q => decide (q ∉ selected)).Perm pool := by
  rw [List.perm_ext_iff_of_nodup ?_ hpool]
  · intro a
    simp only [List.mem_append, List.mem_filter, decide_eq_true_eq]
    constructor
    · rintro (h | ⟨h, _⟩)
      · exact hsub a h
      · exact h
    · intro h
      by_cases hs : a ∈ selected
      · exact Or.inl hs
      · exact Or.inr ⟨h, hs⟩
  · rw [List.nodup_append]
    refine ⟨hsel, hpool.filter _, ?_⟩
    intro a ha hb
    rw [List.mem_filter, decide_eq_true_eq] at hb
    exact hb.2 ha

theorem countP_filter_not_selected (pool selected : List Question)
    (P : Question → Bool)
    (hnd : (pool.map Question.id).Nodup) (hsel : (selected.map Question.id).Nodup)
    (hsub : ∀ s ∈ selected, s ∈ pool) :
    ((pool.filter fun q => ! selected.any fun s => decide (s.id = q.id)).countP P)
        = pool.countP P - selected.countP P ∧
      selected.countP P ≤ pool.countP P := by
  have hpool : pool.Nodup := List.Nodup.of_map _ hnd
  have hselN : selected.Nodup := List.Nodup.of_map _ hsel
  rw [filter_not_selected_eq pool selected hnd hsub]
  have hcount := (selected_append_filter_perm pool selected hpool hselN hsub).countP_eq P
  rw [List.countP_append] at hcount
  omega

theorem requiredCount_cons (c m m' : Int) (rest : List (Int × Int)) :
    requiredCount ((c, m) :: rest) m'
      = (if m = m' then c else 0) + requiredCount rest m' := by
  rw [requiredCount, List.filter_cons]
  by_cases h : m = m'
  · simp [requiredCount, h]
  · simp [requiredCount, h]

theorem requiredCount_nonneg (rest : List (Int × Int)) (m : Int)
    (hpos : ∀ g ∈ rest, 0 < g.1) : 0 ≤ requiredCount rest m := by
  rw [requiredCount]
  apply List.sum_nonneg
  intro x hx
  rw [List.mem_map] at hx
  obtain ⟨g, hg, rfl⟩ := hx
  rw [List.mem_filter] at hg
  exact le_of_lt (hpos g hg.1)

theorem selectLoop_spec (shuffle : Nat → List Question → List Question)
    (hperm : ∀ k l, (shuffle k l).Perm l) :
    ∀ (dist : List (Int × Int)) (k : Nat) (pool : List Question),
      (pool.map Question.id).Nodup →
      (∀ g ∈ dist, 0 < g.1) →
      (∀ m : Int, requiredCount dist m ≤ (availableCount pool m : Int)) →
      (∀ q ∈ selectLoop shuffle k pool dist, q ∈ pool) ∧
      ((selectLoop shuffle k pool dist).map Question.id).Nodup ∧
      ((selectLoop shuffle k pool dist).length : Int) = (dist.map Prod.fst).sum ∧
      ∃ chunks : List (List Question),
        selectLoop shuffle k pool dist = chunks.join ∧
        chunks.length = dist.length ∧
        ∀ i (hi : i < dist.length) (hc : i < chunks.length),
          ((chunks.get ⟨i, hc⟩).length : Int) = (dist.get ⟨i, hi⟩).1 ∧
          ∀ q ∈ chunks.get ⟨i, hc⟩, q.marks = (dist.get ⟨i, hi⟩).2 := by
  intro dist
  induction dist with
  | nil =>
    intro k pool hnd hpos hav
    refine ⟨by simp [selectLoop], by simp [selectLoop], by simp [selectLoop],
      [], by simp [selectLoop], rfl, ?_⟩
    intro i hi hc
    exact absurd hi (Nat.not_lt_zero i)
  | cons g rest ih =>
    intro k pool hnd hpos hav
    obtain ⟨c, m⟩ := g
    have hcpos : (0 : Int) < c := hpos (c, m) (List.mem_cons_self _ _)
    set suitable := pool.filter fun q => decide (q.marks = m) with hsuit
    set shuffled := shuffle k suitable with hshuf
    set selected := jsSlice0 shuffled c with hseldef
    set newPool := pool.filter fun q => ! selected.any fun s => decide (s.id = q.id)
      with hnewdef
    have hloop : selectLoop shuffle k pool ((c, m) :: rest)
        = selected ++ selectLoop shuffle (k + 1) newPool rest := rfl
    -- availability of the head group
    have hreq := hav m
    rw [requiredCount_cons, if_pos rfl] at hreq
    have hrest0 : 0 ≤ requiredCount rest m :=
      requiredCount_nonneg rest m fun g hg => hpos g (List.mem_cons_of_mem _ hg)
    have havm : availableCount pool m = suitable.length := rfl
    have hc_le : c ≤ (suitable.length : Int) := by omega
    have hshuf_len : shuffled.length = suitable.length := (hperm k suitable).length_eq
    -- the slice takes exactly `c` questions
    have hsel_eq : selected = shuffled.take c.toNat := by
      rw [hseldef, jsSlice0, if_neg (by omega)]
    have hsel_len : selected.length = c.toNat := by
      rw [hsel_eq, List.length_take]
      omega
    have hsel_sub_shuffled : ∀ q ∈ selected, q ∈ shuffled := by
      intro q hq
      rw [hsel_eq] at hq
      exact List.take_subset _ _ hq
    have hsel_sub_suitable : ∀ q ∈ selected, q ∈ suitable := by
      intro q hq
      exact ((hperm k suitable).mem_iff).mp (hsel_sub_shuffled q hq)
    have hsel_marks : ∀ q ∈ selected, q.marks = m := by
      intro q hq
      have := hsel_sub_suitable q hq
      rw [hsuit, List.mem_filter, decide_eq_true_eq] at this
      exact this.2
    have hsel_pool : ∀ q ∈ selected, q ∈ pool := by
      intro q hq
      have := hsel_sub_suitable q hq
      rw [hsuit, List.mem_filter] at this
      exact this.1
    have hsuit_ids : (suitable.map Question.id).Nodup :=
      ((List.filter_sublist pool).map Question.id).nodup hnd
    have hshuf_ids : (shuffled.map Question.id).Nodup :=
      (((hperm k suitable).map Question.id).nodup_iff).mpr hsuit_ids
    have hsel_ids : (selected.map Question.id).Nodup := by
      rw [hsel_eq]
      exact ((List.take_sublist c.toNat shuffled).map Question.id).nodup hshuf_ids
    -- count bookkeeping after removal
    have hcountFacts : ∀ m' : Int,
        (availableCount newPool m'
            = availableCount pool m' - selected.countP fun q => decide (q.marks = m')) ∧
          (selected.countP fun q => decide (q.marks = m')) ≤ availableCount pool m' := by
      intro m'
      have := countP_filter_not_selected pool selected
        (fun q => decide (q.marks = m')) hnd hsel_ids hsel_pool
      rw [availableCount, availableCount, ← List.countP_eq_length_filter,
        ← List.countP_eq_length_filter]
      exact this
    have hsel_count_m : (selected.countP fun q => decide (q.marks = m))
        = selected.length := by
      rw [List.countP_eq_length]
      intro q hq
      simp [hsel_marks q hq]
    have hsel_count_ne : ∀ m' : Int, m' ≠ m →
        (selected.countP fun q => decide (q.marks = m')) = 0 := by
      intro m' hne
      rw [List.countP_eq_zero]
      intro q hq
      simp [hsel_marks q hq]
      exact fun hc => absurd hc.symm hne
    -- the invariant survives to the tail
    have havRest : ∀ m' : Int, requiredCount rest m' ≤ (availableCount newPool m' : Int) := by
      intro m'
      by_cases hm' : m' = m
      · subst hm'
        have hf := hcountFacts m'
        rw [hf.1, hsel_count_m, hsel_len]
        have := hf.2
        rw [hsel_count_m, hsel_len] at this
        push_cast [Nat.sub_add_cancel]
        omega
      · have hf := hcountFacts m'
        rw [hf.1, hsel_count_ne m' hm']
        have hr := hav m'
        rw [requiredCount_cons, if_neg (fun hc => hm' hc.symm)] at hr
        omega
    have hnew_ids : (newPool.map Question.id).Nodup :=
      ((List.filter_sublist pool).map Question.id).nodup hnd
    have hposR : ∀ g ∈ rest, 0 < g.1 := fun g hg => hpos g (List.mem_cons_of_mem _ hg)
    obtain ⟨hmemR, hidsR, hlenR, chunksR, hjoinR, hlenCR, hspecR⟩ :=
      ih (k + 1) newPool hnew_ids hposR havRest
    have hnew_sub : ∀ q ∈ newPool, q ∈ pool := by
      intro q hq
      rw [hnewdef, List.mem_filter] at hq
      exact hq.1
    have hdisj : ∀ a, a ∈ selected.map Question.id →
        a ∈ (selectLoop shuffle (k + 1) newPool rest).map Question.id → False := by
      intro a ha hb
      rw [List.mem_map] at ha hb
      obtain ⟨sq, hsq, hsqa⟩ := ha
      obtain ⟨rq, hrq, hrqa⟩ := hb
      have hrq' := hmemR rq hrq
      rw [hnewdef, List.mem_filter] at hrq'
      have hany := hrq'.2
      rw [Bool.not_eq_true', List.any_eq_false] at hany
      have := hany sq hsq
      rw [decide_eq_true_eq] at this
      exact this (hsqa.trans hrqa.symm)
    refine ⟨?_, ?_, ?_, selected :: chunksR, ?_, ?_, ?_⟩
    · intro q hq
      rw [hloop, List.mem_append] at hq
      rcases hq with hq | hq
      · exact hsel_pool q hq
      · exact hnew_sub q (hmemR q hq)
    · rw [hloop, List.map_append, List.nodup_append]
      exact ⟨hsel_ids, hidsR, hdisj⟩
    · rw [hloop, List.length_append, List.map_cons, List.sum_cons, hsel_len]
      push_cast
      omega
    · rw [hloop, hjoinR]
      rfl
    · simp [hlenCR]
    · intro i hi hc
      match i with
      | 0 =>
        constructor
        · show ((selected.length : Int)) = c
          rw [hsel_len]
          omega
        · intro q hq
          exact hsel_marks q hq
      | i + 1 =>
        have hi' : i < rest.length := by simpa using hi
        have hc' : i < chunksR.length := by simpa using hc
        have h1 : (selected :: chunksR).get ⟨i + 1, hc⟩ = chunksR.get ⟨i, hc'⟩ :=
          List.get_cons_succ
        have h2 : (((c, m) :: rest).get ⟨i + 1, hi⟩) = rest.get ⟨i, hi'⟩ :=
          List.get_cons_succ
        rw [h1, h2]
        exact hspecR i hi' hc'

theorem sourcePoolOf_true_eq (questions : List Question) (selectedClass : Int) :
    sourcePoolOf questions selectedClass true
      = (questions.filter fun q => decide (q.cls = selectedClass)).filter
          fun q => q.usedIn.isEmpty := by
  simp [sourcePoolOf]

theorem sourcePoolOf_false_eq (questions : List Question) (selectedClass : Int) :
    sourcePoolOf questions selectedClass false
      = questions.filter fun q => decide (q.cls = selectedClass) := by
  simp [sourcePoolOf]

theorem sourcePoolOf_sublist (questions : List Question) (selectedClass : Int)
    (avoidPrevious : Bool) :
    (sourcePoolOf questions selectedClass avoidPrevious).Sublist questions := by
  cases avoidPrevious
  · rw [sourcePoolOf_false_eq]
    exact List.filter_sublist _
  · rw [sourcePoolOf_true_eq]
    exact (List.filter_sublist _).trans (List.filter_sublist _)

theorem sourcePoolOf_avoid_unused (questions : List Question) (selectedClass : Int) :
    ∀ q ∈ sourcePoolOf questions selectedClass true, q.usedIn = [] := by
  intro q hq
  rw [sourcePoolOf_true_eq, List.mem_filter] at hq
  exact List.isEmpty_iff.mp hq.2

theorem no_missing_invariant (pool : List Question) (dist : List (Int × Int))
    (h : missingMessages pool dist = []) :
    ∀ m : Int, requiredCount dist m ≤ (availableCount pool m : Int) := by
  intro m
  by_cases hm : m ∈ dist.map Prod.snd
  · rw [missingMessages_eq, List.map_eq_nil, List.filter_eq_nil_iff] at h
    have h2 := h m ((mem_dedupFirst _ _).mpr hm)
    simp only [decide_eq_true_eq] at h2
    omega
  · have hfil : (dist.filter fun g => decide (g.2 = m)) = [] := by
      rw [List.filter_eq_nil_iff]
      intro g hg hdec
      rw [decide_eq_true_eq] at hdec
      exact hm (hdec ▸ List.mem_map_of_mem Prod.snd hg)
    rw [requiredCount, hfil]
    simp

/-- C5: sampling success postcondition. On a bank with pairwise-distinct
question ids, with a shuffle that permutes its input and a distribution of
positive counts, a successful `generateFromBank` returns exactly the sum of
the requested counts of questions; no question id repeats in the result; when
avoid-reuse is set every returned question has an empty `usedIn`; and the
result is the concatenation, in the distribution's group order, of chunks
contributing exactly each group's count of questions carrying that group's
mark value. -/
theorem C5_sampling_success (questions : List Question) (selectedClass : Int)
    (avoidPrevious : Bool) (shuffle : Nat → List Question → List Question)
    (dist : List (Int × Int)) (qs : List Question)
    (hids : (questions.map Question.id).Nodup)
    (hperm : ∀ k l, (shuffle k l).Perm l)
    (hpos : ∀ g ∈ dist, 0 < g.1)
    (h : generateFromBank questions selectedClass avoidPrevious shuffle dist = .ok qs) :
    ((qs.length : Int) = (dist.map Prod.fst).sum) ∧
    (qs.map Question.id).Nodup ∧
    (avoidPrevious = true → ∀ q ∈ qs, q.usedIn = []) ∧
    ∃ chunks : List (List Question),
      qs = chunks.join ∧ chunks.length = dist.length ∧
      ∀ i (hi : i < dist.length) (hc : i < chunks.length),
        ((chunks.get ⟨i, hc⟩).length : Int) = (dist.get ⟨i, hi⟩).1 ∧
        ∀ q ∈ chunks.get ⟨i, hc⟩, q.marks = (dist.get ⟨i, hi⟩).2 := by
  rw [generateFromBank] at h
  by_cases hlen : (missingMessages (sourcePoolOf questions selectedClass
      avoidPrevious) dist).length > 0
  · rw [if_pos hlen] at h
    cases h
  · rw [if_neg hlen] at h
    have hmiss : missingMessages (sourcePoolOf questions selectedClass avoidPrevious)
        dist = [] := by
      rw [← List.length_eq_zero]
      omega
    have hsnd : ((sourcePoolOf questions selectedClass avoidPrevious).map
        Question.id).Nodup :=
      ((sourcePoolOf_sublist questions selectedClass avoidPrevious).map
        Question.id).nodup hids
    obtain ⟨hmem, hnodup, hlen2, chunks, hjoin, hclen, hspec⟩ :=
      selectLoop_spec shuffle hperm dist 0 _ hsnd hpos (no_missing_invariant _ _ hmiss)
    cases h
    refine ⟨hlen2, hnodup, ?_, chunks, hjoin, hclen, hspec⟩
    rintro rfl q hq
    exact sourcePoolOf_avoid_unused questions selectedClass q (hmem q hq)

/-- Witness for C5 at the spec's example: distribution `[(2, 5), (1, 10)]`
against a pool of exactly two unused 5-mark and one unused 10-mark question
succeeds with exactly three questions and no repeated id. -/
theorem C5_witness :
    (([qA, qB, qC] : List Question).map Question.id).Nodup ∧
    ((([qA, qB, qC] : List Question).length : Int)
      = ([((2 : Int), (5 : Int)), (1, 10)].map Prod.fst).sum) :=
  ⟨(C5_sampling_success [qA, qB, qC] 10 true (fun _ l => l) [(2, 5), (1, 10)]
      [qA, qB, qC] (by decide) (fun _ l => List.Perm.refl l) (by decide) (by decide)).2.1,
   (C5_sampling_success [qA, qB, qC] 10 true (fun _ l => l) [(2, 5), (1, 10)]
      [qA, qB, qC] (by decide) (fun _ l => List.Perm.refl l) (by decide) (by decide)).1⟩

theorem readRef_allocHeap (h : Heap) (v : List Question) (r : Nat)
    (hr : r < h.arrays.length) : readRef (allocHeap h v) r = readRef h r := by
  rw [readRef, readRef, allocHeap]
  exact List.getD_append _ _ _ _ hr

theorem allocHeap_length (h : Heap) (v : List Question) :
    (allocHeap h v).arrays.length = h.arrays.length + 1 := by
  simp [allocHeap]

theorem readRef_writeRef_ne (h : Heap) (r : Nat) (v : List Question) (r' : Nat)
    (hne : r' ≠ r) : readRef (writeRef h r v) r' = readRef h r' := by
  rw [readRef, readRef, writeRef]
  rw [List.getD_eq_getElem?_getD, List.getD_eq_getElem?_getD]
  rw [List.getElem?_set_ne fun hc => hne hc.symm]

theorem writeRef_length (h : Heap) (r : Nat) (v : List Question) :
    (writeRef h r v).arrays.length = h.arrays.length := by
  simp [writeRef]

/-- The selection loop writes only through the accumulator reference and
fresh allocations: every previously allocated reference other than the
accumulator is untouched. -/
theorem selectLoopHeap_frame (shuffle : Nat → List Question → List Question) :
    ∀ (dist : List (Int × Int)) (h : Heap) (k poolRef accRef r : Nat),
      r < h.arrays.length → r ≠ accRef →
      readRef (selectLoopHeap shuffle dist h k poolRef accRef) r = readRef h r := by
  intro dist
  induction dist with
  | nil =>
    intro h k poolRef accRef r _ _
    rfl
  | cons g rest ih =>
    intro h k poolRef accRef r hr hne
    obtain ⟨c, m⟩ := g
    simp only [selectLoopHeap]
    rw [ih _ (k + 1) _ accRef r
      (by rw [allocHeap_length, writeRef_length]; omega) hne]
    rw [readRef_allocHeap _ _ _ (by rw [writeRef_length]; exact hr)]
    exact readRef_writeRef_ne h accRef _ r hne

/-- `generateFromBank` leaves the bank array untouched: the supplied pool is
only filtered into fresh arrays, and removal/accumulation work on those. -/
theorem generateFromBankHeap_frame (shuffle : Nat → List Question → List Question)
    (h : Heap) (bankRef : Nat) (selectedClass : Int) (avoidPrevious : Bool)
    (dist : List (Int × Int)) (hr : bankRef < h.arrays.length) :
    readRef (generateFromBankHeap shuffle h bankRef selectedClass avoidPrevious
      dist).1 bankRef = readRef h bankRef := by
  have main : ∀ (h2 : Heap) (poolRef : Nat),
      bankRef < h2.arrays.length →
      readRef h2 bankRef = readRef h bankRef →
      readRef (if (missingMessages (readRef h2 poolRef) dist).length > 0 then
          (h2, BankResult.error ("Not enough questions in bank: "
            ++ String.intercalate "; " (missingMessages (readRef h2 poolRef) dist)
            ++ "."))
        else
          (selectLoopHeap shuffle dist (allocHeap h2 []) 0 poolRef (freshRef h2),
           BankResult.ok (readRef
             (selectLoopHeap shuffle dist (allocHeap h2 []) 0 poolRef (freshRef h2))
             (freshRef h2)))).1 bankRef = readRef h bankRef := by
    intro h2 poolRef hlt hread
    split_ifs with hm
    · exact hread
    · show readRef (selectLoopHeap shuffle dist (allocHeap h2 []) 0 poolRef
        (freshRef h2)) bankRef = readRef h bankRef
      rw [selectLoopHeap_frame shuffle dist _ 0 _ _ bankRef
        (by rw [allocHeap_length]; omega) (by rw [freshRef]; omega)]
      rw [readRef_allocHeap _ _ _ hlt]
      exact hread
  cases avoidPrevious
  · exact main
      (allocHeap h ((readRef h bankRef).filter fun q => decide (q.cls = selectedClass)))
      (freshRef h)
      (by rw [allocHeap_length]; omega) (readRef_allocHeap _ _ _ hr)
  · exact main
      (allocHeap
        (allocHeap h ((readRef h bankRef).filter fun q => decide (q.cls = selectedClass)))
        ((readRef
            (allocHeap h ((readRef h bankRef).filter fun q => decide (q.cls = selectedClass)))
            (freshRef h)).filter fun q => q.usedIn.isEmpty))
      (freshRef
        (allocHeap h ((readRef h bankRef).filter fun q => decide (q.cls = selectedClass))))
      (by rw [allocHeap_length, allocHeap_length]; omega)
      (by rw [readRef_allocHeap _ _ _ (by rw [allocHeap_length]; omega)]
          exact readRef_allocHeap _ _ _ hr)

/-- The AI request loop writes only through the two invocation-local
references. -/
theorem aiOrchLoopHeap_frame (batches : Nat → List Question) :
    ∀ (plan : List (Int × Nat × String)) (h : Heap) (k poolRef accRef r : Nat),
      r ≠ accRef → r ≠ poolRef →
      readRef (aiOrchLoopHeap batches plan h k poolRef accRef) r = readRef h r := by
  intro plan
  induction plan with
  | nil =>
    intro h k poolRef accRef r _ _
    rfl
  | cons p rest ih =>
    intro h k poolRef accRef r hna hnp
    simp only [aiOrchLoopHeap]
    rw [ih _ (k + 1) poolRef accRef r hna hnp]
    by_cases hb : (batches k).isEmpty
    · rw [if_pos hb]
    · rw [if_neg hb]
      rw [readRef_writeRef_ne _ poolRef _ r hnp]
      exact readRef_writeRef_ne h accRef _ r hna

/-- C9: the question bank is never written by the core. Re-running both the
bank-sampling path and the AI orchestration path against the explicit heap
of array references, the bank array's content after the call equals its
content before: filtering and removal operate on fresh arrays, and
AI-produced questions are appended only to the invocation-local accumulator
and working pool. -/
theorem C9_bank_never_written (shuffle : Nat → List Question → List Question)
    (batches : Nat → List Question) (h : Heap) (bankRef : Nat)
    (selectedClass : Int) (avoidPrevious : Bool) (aiQuestionType : List String)
    (dist : List (Int × Int)) (hr : bankRef < h.arrays.length) :
    readRef (generateFromBankHeap shuffle h bankRef selectedClass avoidPrevious
        dist).1 bankRef = readRef h bankRef ∧
    readRef (aiOrchestrationHeap batches h bankRef selectedClass avoidPrevious
        aiQuestionType dist).1 bankRef = readRef h bankRef := by
  constructor
  · exact generateFromBankHeap_frame shuffle h bankRef selectedClass avoidPrevious
      dist hr
  · simp only [aiOrchestrationHeap]
    rw [aiOrchLoopHeap_frame batches _ _ 0 _ _ bankRef
      (by rw [freshRef, allocHeap_length]; omega)
      (by rw [freshRef]; omega)]
    rw [readRef_allocHeap _ _ _ (by rw [allocHeap_length]; omega)]
    exact readRef_allocHeap _ _ _ hr

/-- Witness for C9 on a one-array heap holding the bank. -/
theorem C9_witness :
    readRef (generateFromBankHeap (fun _ l => l) ⟨[[qA]]⟩ 0 10 true [(1, 5)]).1 0
        = readRef ⟨[[qA]]⟩ 0 ∧
    readRef (aiOrchestrationHeap (fun _ => [qB]) ⟨[[qA]]⟩ 0 10 true ["T"]
        [(1, 5)]).1 0 = readRef ⟨[[qA]]⟩ 0 :=
  C9_bank_never_written (fun _ l => l) (fun _ => [qB]) ⟨[[qA]]⟩ 0 10 true ["T"]
    [(1, 5)] (by decide)

end BioQuest
